import Mathlib

set_option maxHeartbeats 1000000

/-!
Shallow embedding of src/main.rs of the roxy static site generator, together
with theorems settling the frozen claims about it.  Rust HashMap and the
BTreeMap backing a tera Context are modelled as association lists whose insert
overwrites the value of an existing key; file paths are modelled as
slash-separated strings together with a component view mirroring the semantics
of std::path::Path.
-/

/-- Lookup in the association-list model of HashMap / BTreeMap. -/
def mapFind {α : Type} : List (String × α) → String → Option α
  | [], _ => none
  | (k, v) :: rest, key => if k = key then some v else mapFind rest key

/-- Insert in the association-list model: overwrites the value of an existing
key in place, appends a fresh binding otherwise, like HashMap::insert. -/
def mapInsert {α : Type} : List (String × α) → String → α → List (String × α)
  | [], key, v => [(key, v)]
  | (k, w) :: rest, key, v =>
    if k = key then (key, v) :: rest else (k, w) :: mapInsert rest key v

theorem mapFind_mapInsert {α : Type} (m : List (String × α)) (k key : String) (v : α) :
    mapFind (mapInsert m k v) key = if key = k then some v else mapFind m key := by
  induction m with
  | nil =>
    by_cases h : k = key
    · subst h
      simp [mapInsert, mapFind]
    · have h2 : ¬ key = k := fun hh => h hh.symm
      simp [mapInsert, mapFind, h, h2]
  | cons p rest ih =>
    obtain ⟨k0, w⟩ := p
    by_cases h0 : k0 = k
    · subst h0
      by_cases h1 : key = k0
      · subst h1
        simp [mapInsert, mapFind]
      · have h2 : ¬ k0 = key := fun hh => h1 hh.symm
        simp [mapInsert, mapFind, h1, h2]
    · by_cases h1 : k0 = key
      · subst h1
        simp [mapInsert, mapFind, h0]
      · simp [mapInsert, mapFind, h0, h1, ih]

/-- The Content struct of main.rs: one compiled item per accepted source file.
The Frontmatter newtype around HashMap of String to String is modelled as an
association list. -/
structure Content where
  path : String
  slug : String
  frontmatter : List (String × String)
  content : String
  deriving DecidableEq

/-- Rust str::split_once on a single-character pattern: splits at the first
occurrence of the separator, returning the text before and after it. -/
def splitOnceList (sep : Char) : List Char → Option (List Char × List Char)
  | [] => none
  | c :: cs =>
    if c = sep then some ([], cs)
    else
      match splitOnceList sep cs with
      | some pr => some (c :: pr.1, pr.2)
      | none => none

/-- The section key of an item: the text before the first path separator of
its path, if any, mirroring the split_once call in compile_content_map. -/
def sectionKey (c : Content) : Option String :=
  (splitOnceList '/' c.path.data).map (fun pr => String.mk pr.1)

/-- One loop step of compile_content_map for an item whose path has a
separator: push the item onto the bucket of its section, creating the bucket
if absent (the get_mut / insert pair in the source). -/
def pushTo (m : List (String × List Content)) (k : String) (c : Content) :
    List (String × List Content) :=
  match mapFind m k with
  | some v => mapInsert m k (v ++ [c])
  | none => mapInsert m k [c]

/-- The loop of compile_content_map: the accumulator hm holds the per-section
buckets, dflt holds the separator-free items; at the end the dflt list is
inserted under the key default, overwriting any bucket of that name. -/
def buildMap : List Content → List (String × List Content) → List Content →
    List (String × List Content)
  | [], hm, dflt => mapInsert hm "default" dflt
  | c :: rest, hm, dflt =>
    match splitOnceList '/' c.path.data with
    | some pr => buildMap rest (pushTo hm (String.mk pr.1) c) dflt
    | none => buildMap rest hm (dflt ++ [c])

/-- compile_content_map of main.rs. -/
def compileContentMap (contents : List Content) : List (String × List Content) :=
  buildMap contents [] []

/-- Combination of an optional pre-existing bucket with newly grouped items:
the shape of a bucket lookup after running the grouping loop. -/
def bucketJoin (o : Option (List Content)) (l : List Content) : Option (List Content) :=
  match o with
  | some v => some (v ++ l)
  | none => if l = [] then none else some l

theorem buildMap_find_ne (cs : List Content) :
    ∀ (hm : List (String × List Content)) (dflt : List Content) (k : String),
    ¬ k = "default" →
    mapFind (buildMap cs hm dflt) k
      = bucketJoin (mapFind hm k) (cs.filter (fun c => decide (sectionKey c = some k))) := by
  induction cs with
  | nil =>
    intro hm dflt k hk
    have h2 : ¬ k = "default" := hk
    simp only [buildMap, mapFind_mapInsert, if_neg h2, List.filter_nil]
    cases h : mapFind hm k <;> simp [bucketJoin, h]
  | cons c cs ih =>
    intro hm dflt k hk
    cases hsp : splitOnceList '/' c.path.data with
    | none =>
      have hsec : sectionKey c = none := by simp [sectionKey, hsp]
      simp only [buildMap, hsp]
      rw [ih _ _ k hk]
      simp [List.filter_cons, hsec]
    | some pr =>
      have hsec : sectionKey c = some (String.mk pr.1) := by simp [sectionKey, hsp]
      simp only [buildMap, hsp]
      rw [ih _ _ k hk]
      by_cases hk2 : String.mk pr.1 = k
      · subst hk2
        cases hfind : mapFind hm (String.mk pr.1) with
        | some v =>
          simp [pushTo, hfind, mapFind_mapInsert, bucketJoin, List.filter_cons, hsec]
        | none =>
          simp [pushTo, hfind, mapFind_mapInsert, bucketJoin, List.filter_cons, hsec]
      · have hfind : mapFind (pushTo hm (String.mk pr.1) c) k = mapFind hm k := by
          have h2 : ¬ k = String.mk pr.1 := fun hh => hk2 hh.symm
          cases hf : mapFind hm (String.mk pr.1) <;>
            simp [pushTo, hf, mapFind_mapInsert, h2]
        rw [hfind]
        have hdec : decide (sectionKey c = some k) = false := by
          simp [hsec]
          exact hk2
        simp [List.filter_cons, hdec]

theorem buildMap_find_default (cs : List Content) :
    ∀ (hm : List (String × List Content)) (dflt : List Content),
    mapFind (buildMap cs hm dflt) "default"
      = some (dflt ++ cs.filter (fun c => decide (sectionKey c = none))) := by
  induction cs with
  | nil =>
    intro hm dflt
    simp [buildMap, mapFind_mapInsert]
  | cons c cs ih =>
    intro hm dflt
    cases hsp : splitOnceList '/' c.path.data with
    | none =>
      have hsec : sectionKey c = none := by simp [sectionKey, hsp]
      simp only [buildMap, hsp]
      rw [ih]
      simp [List.filter_cons, hsec]
    | some pr =>
      have hsec : sectionKey c = some (String.mk pr.1) := by simp [sectionKey, hsp]
      simp only [buildMap, hsp]
      rw [ih]
      simp [List.filter_cons, hsec]

/-- Claim C10: the mapping returned by compile_content_map always contains the
key default; its bucket is exactly the separator-free items in traversal
order, hence the empty sequence when no item has a separator-free path. -/
theorem c10_default_always_present (contents : List Content) :
    mapFind (compileContentMap contents) "default"
      = some (contents.filter (fun c => decide (sectionKey c = none))) := by
  simpa [compileContentMap] using buildMap_find_default contents [] []

/-- Claim C8 fails on the code: an item whose first path segment is the
literal string default is grouped into the bucket named default during the
loop, but the final unconditional insert of the separator-free items
overwrites that bucket, so the item is dropped from the mapping entirely. -/
theorem c8_default_section_items_lost :
    sectionKey ⟨"default/a.md", "/default/a", [], ""⟩ = some "default"
      ∧ mapFind (compileContentMap [⟨"default/a.md", "/default/a", [], ""⟩]) "default"
          = some [] := by
  constructor
  · rfl
  · rfl

/-- Claim C8 (amended): for every key other than default, the bucket of the
built mapping holds exactly the items whose path starts with that key followed
by a separator, in traversal order (and the key is absent when no such item
exists); the default bucket holds exactly the separator-free items, so items
whose first segment is literally default are lost. -/
theorem c8_section_grouping (contents : List Content) (k : String)
    (hk : ¬ k = "default") :
    mapFind (compileContentMap contents) k
      = (if contents.filter (fun c => decide (sectionKey c = some k)) = []
          then none
          else some (contents.filter (fun c => decide (sectionKey c = some k)))) := by
  have h := buildMap_find_ne contents [] [] k hk
  simpa [compileContentMap, mapFind, bucketJoin] using h

theorem c8_section_grouping_witness :
    ¬ ("blog" : String) = "default"
      ∧ mapFind (compileContentMap [⟨"blog/post.md", "/blog/post", [], ""⟩]) "blog"
          = (if [(⟨"blog/post.md", "/blog/post", [], ""⟩ : Content)].filter
                  (fun c => decide (sectionKey c = some "blog")) = []
              then none
              else some ([(⟨"blog/post.md", "/blog/post", [], ""⟩ : Content)].filter
                  (fun c => decide (sectionKey c = some "blog")))) :=
  ⟨by decide, c8_section_grouping [⟨"blog/post.md", "/blog/post", [], ""⟩] "blog" (by decide)⟩

/-- Splitting a character list at every occurrence of a separator, keeping
empty pieces; the accumulator holds the current piece reversed. -/
def splitOnCharAux (sep : Char) : List Char → List Char → List (List Char)
  | [], acc => [acc.reverse]
  | c :: cs, acc =>
    if c = sep then acc.reverse :: splitOnCharAux sep cs [] else splitOnCharAux sep cs (c :: acc)

/-- The component view of a relative path, mirroring Path::components of Rust:
slashes separate components, and empty or current-directory components are
normalized away. -/
def pathComponents (p : String) : List String :=
  ((splitOnCharAux '/' p.data []).map String.mk).filter (fun c => !(c == "") && !(c == "."))

/-- Path::parent of Rust on the component view: none for an empty path,
otherwise the components with the last one removed. -/
def parentOf (p : String) : Option (List String) :=
  match pathComponents p with
  | [] => none
  | cs => some cs.dropLast

/-- Path::file_name of Rust: the last component, unless it is the
parent-directory component. -/
def fileNameOf (p : String) : Option String :=
  match (pathComponents p).getLast? with
  | none => none
  | some n => if n = ".." then none else some n

/-- Split a character list at its last dot, returning the text before and
after it, or none when no dot occurs. -/
def lastDotSplit : List Char → Option (List Char × List Char)
  | [] => none
  | c :: rest =>
    match lastDotSplit rest with
    | some pr => some (c :: pr.1, pr.2)
    | none => if c = '.' then some ([], rest) else none

/-- Path::file_stem of Rust applied to a file name: the portion before the
last dot, except that a name whose only dot is leading is its own stem. -/
def stemOfName (name : String) : String :=
  match lastDotSplit name.data with
  | none => name
  | some pr => if pr.1 = [] then name else String.mk pr.1

/-- Path::extension of Rust applied to a file name: the portion after the
last dot, none when there is no dot or the only dot is leading. -/
def extOfName (name : String) : Option String :=
  match lastDotSplit name.data with
  | none => none
  | some pr => if pr.1 = [] then none else some (String.mk pr.2)

/-- Path::file_stem of Rust. -/
def fileStemOf (p : String) : Option String := (fileNameOf p).map stemOfName

/-- Path::extension of Rust. -/
def extensionOf (p : String) : Option String := (fileNameOf p).bind extOfName

/-- PathBuf::set_extension applied to a bare file name. -/
def setExtension (name ext : String) : String := stemOfName name ++ "." ++ ext

/-- str::eq_ignore_ascii_case of Rust. -/
def eqIgnoreAsciiCase (a b : String) : Bool :=
  a.data.map Char.toLower == b.data.map Char.toLower

/-- The output directory computed by create_files for one item: the output
root joined with the parent of the item path, then with the file stem unless
the stem is empty or equals index ignoring ascii case. -/
def outputDirOf (output : String) (par : List String) (stem : String) : List String :=
  pathComponents output ++ par
    ++ (if (stem == "") || eqIgnoreAsciiCase stem "index" then [] else [stem])

/-- The output file location of create_files for one item, as components:
the output directory followed by the file name index with extension set to
html; none when the item path has no parent or no file stem (in which case
the source skips the item or panics before producing a file). -/
def outputLocation (output p : String) : Option (List String) :=
  match parentOf p, fileStemOf p with
  | some par, some stem => some (outputDirOf output par stem ++ [setExtension "index" "html"])
  | _, _ => none

/-- Claim C4: for every item, the output file location is the output root,
then the parent of the item path, then a subdirectory named after the file
stem (omitted when the stem is empty or equals index ignoring ascii case),
then index.html; in particular about.md maps to out/about/index.html,
index.md to out/index.html, and blog/post.md to out/blog/post/index.html. -/
theorem c4_output_path_rule :
    (∀ output p par stem, parentOf p = some par → fileStemOf p = some stem →
       outputLocation output p
         = some (pathComponents output ++ par
             ++ (if stem = "" ∨ eqIgnoreAsciiCase stem "index" = true then [] else [stem])
             ++ ["index.html"]))
    ∧ outputLocation "out" "about.md" = some ["out", "about", "index.html"]
    ∧ outputLocation "out" "index.md" = some ["out", "index.html"]
    ∧ outputLocation "out" "blog/post.md" = some ["out", "blog", "post", "index.html"] := by
  refine ⟨?_, by decide, by decide, by decide⟩
  intro output p par stem hp hs
  have hset : setExtension "index" "html" = "index.html" := rfl
  simp only [outputLocation, hp, hs, outputDirOf, hset, Option.some.injEq]
  by_cases hc : stem = "" ∨ eqIgnoreAsciiCase stem "index" = true
  · have hb : ((stem == "") || eqIgnoreAsciiCase stem "index") = true := by
      rcases hc with hc | hc
      · simp [hc]
      · simp [hc]
    simp [hb, hc]
  · have hb : ((stem == "") || eqIgnoreAsciiCase stem "index") = false := by
      push_neg at hc
      simp [hc.1, hc.2]
    simp [hb, hc, List.append_assoc]

theorem c4_output_path_rule_witness :
    parentOf "blog/post.md" = some ["blog"]
      ∧ fileStemOf "blog/post.md" = some "post"
      ∧ outputLocation "out2" "blog/post.md"
          = some (pathComponents "out2" ++ ["blog"]
              ++ (if ("post" : String) = "" ∨ eqIgnoreAsciiCase "post" "index" = true
                  then [] else ["post"])
              ++ ["index.html"]) :=
  ⟨by decide, by decide,
    c4_output_path_rule.1 "out2" "blog/post.md" ["blog"] "post" (by decide) (by decide)⟩

/-- The greedy length consumed by the optional trailing group of the slug
regex: a dot of the regex matches any character except a newline, so the
group consumes the maximal newline-free run (possibly empty). -/
def dotRun (s : List Char) : Nat := (s.takeWhile (fun c => !(c == '\n'))).length

/-- The literal md of the slug regex. -/
def litMd : List Char := ['m', 'd']

/-- The literal html of the slug regex. -/
def litHtml : List Char := ['h', 't', 'm', 'l']

/-- The literal tera of the slug regex. -/
def litTera : List Char := ['t', 'e', 'r', 'a']

/-- The literal index of the slug regex. -/
def litIndex : List Char := ['i', 'n', 'd', 'e', 'x']

/-- Matching the mandatory core of the slug regex at the head of the input:
one of the three extension literals followed by the optional greedy trailing
group; returns the consumed length. -/
def matchCore (s : List Char) : Option Nat :=
  if litMd.isPrefixOf s then some (2 + dotRun (s.drop 2))
  else if litHtml.isPrefixOf s then some (4 + dotRun (s.drop 4))
  else if litTera.isPrefixOf s then some (4 + dotRun (s.drop 4))
  else none

/-- Matching the optional dot followed by the core, with the backtracking
preference of the regex engine: consume the dot first, fall back to not
consuming it. -/
def matchDot (s : List Char) : Option Nat :=
  match s with
  | [] => matchCore []
  | c :: rest =>
    if c = '.' then
      (match matchCore rest with
       | some n => some (n + 1)
       | none => matchCore (c :: rest))
    else matchCore (c :: rest)

/-- Matching the optional index literal followed by the rest of the pattern,
with backtracking preference. -/
def matchIdx (s : List Char) : Option Nat :=
  if litIndex.isPrefixOf s then
    (match matchDot (s.drop 5) with
     | some n => some (n + 5)
     | none => matchDot s)
  else matchDot s

/-- Matching the whole slug regex at the head of the input: an optional
slash, an optional index, an optional dot, an extension literal, an optional
trailing run. -/
def matchAll (s : List Char) : Option Nat :=
  match s with
  | [] => matchIdx []
  | c :: rest =>
    if c = '/' then
      (match matchIdx rest with
       | some n => some (n + 1)
       | none => matchIdx (c :: rest))
    else matchIdx (c :: rest)

/-- The leftmost match of the slug regex: the start position and consumed
length of the first position at which the pattern matches, mirroring the
leftmost-first search of Regex::find used by Regex::replace. -/
def findMatch : List Char → Option (Nat × Nat)
  | [] =>
    (match matchAll [] with
     | some n => some (0, n)
     | none => none)
  | c :: cs =>
    (match matchAll (c :: cs) with
     | some n => some (0, n)
     | none =>
       (match findMatch cs with
        | some pr => some (pr.1 + 1, pr.2)
        | none => none))

/-- Regex::replace with an empty replacement: remove the leftmost match, or
return the input unchanged when there is none. -/
def regexReplaceEmpty (s : List Char) : List Char :=
  match findMatch s with
  | some pr => s.take pr.1 ++ s.drop (pr.1 + pr.2)
  | none => s

/-- The slug computation of compile_content: replace the leftmost match of
the regex by nothing, then prepend a slash. -/
def slugOf (p : String) : String := String.mk ('/' :: regexReplaceEmpty p.data)

/-- Regex::is_match of the slug regex, used by compile_content to filter
extensions. -/
def isMatch (s : String) : Bool := (findMatch s.data).isSome

/-- Claim C2 fails on the code: the path about/index.html yields the slug
/about, not /about/ as claimed, because the leftmost regex match spans the
separator, the index segment, the dot and the extension. -/
theorem c2_about_index_html_slug :
    slugOf "about/index.html" = "/about" ∧ ¬ slugOf "about/index.html" = "/about/" := by
  constructor
  · rfl
  · decide

/-- Claim C2 (amended): every slug begins with a slash, and the slug is the
relative path with the leftmost match of the extension regex deleted; in
particular blog/post.md yields /blog/post, index.md yields /, and
about/index.html yields /about (the trailing separator of the claim does not
survive, since the match swallows the separator preceding the index
segment). -/
theorem c2_slug_rule :
    (∀ p : String, (slugOf p).data.headI = '/')
      ∧ slugOf "blog/post.md" = "/blog/post"
      ∧ slugOf "index.md" = "/"
      ∧ slugOf "about/index.html" = "/about" := by
  refine ⟨?_, by decide, by decide, by decide⟩
  intro p
  rfl

/-- Whether one of the three extension literals of the slug regex occurs at
the head of the input. -/
def startsLit (s : List Char) : Bool :=
  litMd.isPrefixOf s || litHtml.isPrefixOf s || litTera.isPrefixOf s

/-- Whether one of the three extension literals occurs anywhere in the
input. -/
def containsLit : List Char → Bool
  | [] => false
  | c :: cs => startsLit (c :: cs) || containsLit cs

theorem matchCore_isSome (s : List Char) : (matchCore s).isSome = startsLit s := by
  unfold matchCore startsLit
  by_cases h1 : litMd.isPrefixOf s
  · simp [h1]
  · by_cases h2 : litHtml.isPrefixOf s
    · simp [h1, h2]
    · by_cases h3 : litTera.isPrefixOf s
      · simp [h1, h2, h3]
      · simp [h1, h2, h3]

theorem matchDot_isSome_of_core (s : List Char) (h : (matchCore s).isSome = true) :
    (matchDot s).isSome = true := by
  cases s with
  | nil => simpa [matchDot] using h
  | cons c rest =>
    by_cases hc : c = '.'
    · subst hc
      cases h2 : matchCore rest with
      | some n => simp [matchDot, h2]
      | none => simpa [matchDot, h2] using h
    · simpa [matchDot, hc] using h

theorem matchIdx_isSome_of_dot (s : List Char) (h : (matchDot s).isSome = true) :
    (matchIdx s).isSome = true := by
  by_cases hp : litIndex.isPrefixOf s
  · cases h2 : matchDot (s.drop 5) with
    | some n => simp [matchIdx, hp, h2]
    | none => simpa [matchIdx, hp, h2] using h
  · simpa [matchIdx, hp] using h

theorem matchAll_isSome_of_idx (s : List Char) (h : (matchIdx s).isSome = true) :
    (matchAll s).isSome = true := by
  cases s with
  | nil => simpa [matchAll] using h
  | cons c rest =>
    by_cases hc : c = '/'
    · subst hc
      cases h2 : matchIdx rest with
      | some n => simp [matchAll, h2]
      | none => simpa [matchAll, h2] using h
    · simpa [matchAll, hc] using h

theorem matchAll_isSome_of_startsLit (s : List Char) (h : startsLit s = true) :
    (matchAll s).isSome = true := by
  apply matchAll_isSome_of_idx
  apply matchIdx_isSome_of_dot
  apply matchDot_isSome_of_core
  rw [matchCore_isSome]
  exact h

theorem containsLit_cons (c : Char) (cs : List Char) (h : containsLit cs = true) :
    containsLit (c :: cs) = true := by
  simp [containsLit, h]

theorem containsLit_of_drop (s : List Char) :
    ∀ n : Nat, containsLit (s.drop n) = true → containsLit s = true := by
  induction s with
  | nil => intro n h; simpa using h
  | cons c cs ih =>
    intro n h
    cases n with
    | zero => simpa using h
    | succ m =>
      have := ih m (by simpa using h)
      exact containsLit_cons c cs this

theorem containsLit_of_startsLit (s : List Char) (h : startsLit s = true) :
    containsLit s = true := by
  cases s with
  | nil => simp [startsLit, litMd, litHtml, litTera, List.isPrefixOf] at h
  | cons c cs => simp [containsLit, h]

theorem containsLit_of_core (s : List Char) (h : (matchCore s).isSome = true) :
    containsLit s = true := by
  rw [matchCore_isSome] at h
  exact containsLit_of_startsLit s h

theorem containsLit_of_dot (s : List Char) (h : (matchDot s).isSome = true) :
    containsLit s = true := by
  cases s with
  | nil =>
    simp [matchDot, matchCore, litMd, litHtml, litTera, List.isPrefixOf] at h
  | cons c rest =>
    by_cases hc : c = '.'
    · subst hc
      cases h2 : matchCore rest with
      | some n =>
        exact containsLit_cons _ _ (containsLit_of_core rest (by simp [h2]))
      | none =>
        rw [matchDot] at h
        simp only [if_pos rfl, h2] at h
        exact containsLit_of_core _ h
    · rw [matchDot] at h
      simp only [if_neg hc] at h
      exact containsLit_of_core _ h

theorem containsLit_of_idx (s : List Char) (h : (matchIdx s).isSome = true) :
    containsLit s = true := by
  by_cases hp : litIndex.isPrefixOf s
  · cases h2 : matchDot (s.drop 5) with
    | some n =>
      exact containsLit_of_drop s 5 (containsLit_of_dot _ (by simp [h2]))
    | none =>
      rw [matchIdx] at h
      simp only [if_pos hp, h2] at h
      exact containsLit_of_dot _ h
  · rw [matchIdx] at h
    simp only [if_neg hp] at h
    exact containsLit_of_dot _ h

theorem containsLit_of_all (s : List Char) (h : (matchAll s).isSome = true) :
    containsLit s = true := by
  cases s with
  | nil =>
    simp [matchAll, matchIdx, matchDot, matchCore, litMd, litHtml, litTera,
      litIndex, List.isPrefixOf] at h
  | cons c rest =>
    by_cases hc : c = '/'
    · subst hc
      cases h2 : matchIdx rest with
      | some n =>
        exact containsLit_cons _ _ (containsLit_of_idx rest (by simp [h2]))
      | none =>
        rw [matchAll] at h
        simp only [if_pos rfl, h2] at h
        exact containsLit_of_idx _ h
    · rw [matchAll] at h
      simp only [if_neg hc] at h
      exact containsLit_of_idx _ h

theorem findMatch_isSome_eq_containsLit (s : List Char) :
    (findMatch s).isSome = containsLit s := by
  induction s with
  | nil => decide
  | cons c cs ih =>
    cases h : matchAll (c :: cs) with
    | some n =>
      have h1 : containsLit (c :: cs) = true := containsLit_of_all _ (by simp [h])
      simp [findMatch, h, h1]
    | none =>
      have h2 : startsLit (c :: cs) = false := by
        by_contra hb
        have h3 : startsLit (c :: cs) = true := by
          cases h4 : startsLit (c :: cs) with
          | true => rfl
          | false => exact absurd h4 hb
        have := matchAll_isSome_of_startsLit (c :: cs) h3
        rw [h] at this
        simp at this
      rw [findMatch]
      simp only [h]
      cases h5 : findMatch cs with
      | some pr =>
        have h6 : containsLit cs = true := by rw [← ih, h5]; rfl
        simp [containsLit, h2, h6]
      | none =>
        have h6 : containsLit cs = false := by rw [← ih, h5]; rfl
        simp [containsLit, h2, h6]

/-- is_hidden of main.rs: whether the file name of the path starts with a
dot; false when the path has no file name. -/
def isHidden (p : String) : Bool :=
  match fileNameOf p with
  | some n =>
    (match n.data with
     | '.' :: _ => true
     | _ => false)
  | none => false

/-- The acceptance filter of compile_content for a regular file at the given
relative path: hidden files are skipped, and a file with an extension is
skipped unless the slug regex matches somewhere in the extension; a file
without an extension is accepted. -/
def acceptedByCompile (p : String) : Bool :=
  if isHidden p then false
  else
    match extensionOf p with
    | none => true
    | some e => isMatch e

/-- The fixed extension list of copy_static. -/
def staticExtSkip (e : String) : Bool := e == "md" || e == "html" || e == "tera"

/-- The selection filter of copy_static for a regular file at the given
relative path: non-hidden files having an extension outside the fixed list
are copied; files without an extension are not. -/
def copiedByStatic (p : String) : Bool :=
  if isHidden p then false
  else
    match extensionOf p with
    | none => false
    | some e => !staticExtSkip e

/-- Claim C6 fails on the code: the extension cmd is not md, html or tera,
yet a file run.cmd passes the compile filter, because the filter only asks
the regex to match somewhere inside the extension and cmd contains md; the
same file also passes the copy_static filter, so it is not left to the
static pass alone. -/
theorem c6_cmd_extension_accepted :
    extensionOf "run.cmd" = some "cmd"
      ∧ ¬ ("cmd" = "md" ∨ "cmd" = "html" ∨ "cmd" = "tera")
      ∧ acceptedByCompile "run.cmd" = true
      ∧ copiedByStatic "run.cmd" = true := by
  refine ⟨by decide, by decide, by decide, by decide⟩

/-- Claim C6 (amended): a non-hidden regular file with an extension is
compiled exactly when the slug regex matches inside the extension, which
happens exactly when the extension contains md, html or tera as a substring;
extensions without such a substring are left to the static pass, but loosely
matching extensions outside the exact list, such as cmd, are both compiled
and copied by the static pass. -/
theorem c6_extension_regex_rule :
    (∀ e : String, isMatch e = containsLit e.data)
      ∧ (∀ p e, extensionOf p = some e → isHidden p = false →
          acceptedByCompile p = isMatch e)
      ∧ (∀ p e, extensionOf p = some e → isHidden p = false →
          copiedByStatic p = !staticExtSkip e) := by
  refine ⟨?_, ?_, ?_⟩
  · intro e
    simpa [isMatch] using findMatch_isSome_eq_containsLit e.data
  · intro p e he hh
    simp [acceptedByCompile, hh, he]
  · intro p e he hh
    simp [copiedByStatic, hh, he]

theorem c6_extension_regex_rule_witness :
    extensionOf "notes.txt" = some "txt"
      ∧ isHidden "notes.txt" = false
      ∧ acceptedByCompile "notes.txt" = isMatch "txt" :=
  ⟨by decide, by decide, c6_extension_regex_rule.2.1 "notes.txt" "txt" (by decide) (by decide)⟩

/-- A source file as seen by compile_content: its relative path, its decoded
text, and whether the body bytes after the frontmatter decode as utf-8 (on
failure the source drops the file silently). -/
structure SourceFile where
  relPath : String
  text : String
  bodyUtf8Ok : Bool
  deriving DecidableEq

/-- Splitting a character stream into lines, each line including its
terminating newline when present, mirroring successive BufRead::read_line
calls; the accumulator holds the current line reversed. -/
def toLinesAux : List Char → List Char → List (List Char)
  | [], acc => if acc.isEmpty then [] else [acc.reverse]
  | c :: cs, acc =>
    if c = '\n' then (acc.reverse ++ ['\n']) :: toLinesAux cs [] else toLinesAux cs (c :: acc)

/-- The line view of a character stream. -/
def toLines (s : List Char) : List (List Char) := toLinesAux s []

/-- Whether a line starts with a dash, the loop exit test of
read_frontmatter. -/
def lineStartsDash : List Char → Bool
  | c :: _ => c = '-'
  | [] => false

/-- Rust char::is_whitespace restricted to the ascii whitespace characters,
which is all str::trim removes on the inputs considered here. -/
def isWs (c : Char) : Bool := c == ' ' || c == '\t' || c == '\r' || c == '\n'

/-- str::trim of Rust on a character list. -/
def trimChars (cs : List Char) : List Char :=
  ((cs.dropWhile isWs).reverse.dropWhile isWs).reverse

/-- One loop iteration of read_frontmatter on a line already read: split the
line at its first colon; when a colon exists insert the trimmed key and
trimmed value into the accumulated mapping, otherwise skip the line. -/
def headerStep (acc : List (String × String)) (l : List Char) : List (String × String) :=
  match splitOnceList ':' l with
  | some pr => mapInsert acc (String.mk (trimChars pr.1)) (String.mk (trimChars pr.2))
  | none => acc

/-- The read_frontmatter loop over the line view of the stream after the
opening delimiter: stop before accumulating at the first line starting with
a dash (consuming it) or at end of stream; return the accumulated mapping
and the remaining lines. -/
def processHeader : List (List Char) → List (String × String) →
    List (String × String) × List (List Char)
  | [], acc => (acc, [])
  | l :: ls, acc =>
    if lineStartsDash l then (acc, ls) else processHeader ls (headerStep acc l)

/-- Concatenation of the remaining lines back into a character stream. -/
def joinLines : List (List Char) → List Char
  | [] => []
  | l :: ls => l ++ joinLines ls

/-- read_frontmatter of main.rs on a character stream positioned at the
start: when the first three characters are not the delimiter, report an
empty mapping and leave the whole stream unread (cursor at position zero,
expressed by returning the untouched stream); otherwise run the header loop
over the lines after the delimiter, returning the mapping and the unread
remainder of the stream. -/
def readFrontmatter (s : List Char) : List (String × String) × List Char :=
  if s.take 3 = ['-', '-', '-'] then
    (fun r => (r.1, joinLines r.2)) (processHeader (toLines (s.drop 3)) [])
  else ([], s)

/-- Whether a line does not start with a dash. -/
def notDash (l : List Char) : Bool := !lineStartsDash l

/-- The mapping described by the claim: fold the per-line step over the
lines strictly before the first dash-starting line. -/
def headerFold (ls : List (List Char)) : List (String × String) :=
  (ls.takeWhile notDash).foldl headerStep []

/-- The lines after the first dash-starting line; everything is consumed
when no line starts with a dash. -/
def bodyAfter (ls : List (List Char)) : List (List Char) :=
  match ls.dropWhile notDash with
  | [] => []
  | _ :: rest => rest

theorem processHeader_spec (ls : List (List Char)) :
    ∀ acc, processHeader ls acc = ((ls.takeWhile notDash).foldl headerStep acc, bodyAfter ls) := by
  induction ls with
  | nil => intro acc; simp [processHeader, bodyAfter]
  | cons l ls ih =>
    intro acc
    by_cases h : lineStartsDash l = true
    · have hnd : notDash l = false := by simp [notDash, h]
      simp [processHeader, h, bodyAfter, List.takeWhile_cons, List.dropWhile_cons, hnd]
    · have hb : lineStartsDash l = false := by
        cases h2 : lineStartsDash l with
        | true => exact absurd h2 h
        | false => rfl
      have hnd : notDash l = true := by simp [notDash, hb]
      simp [processHeader, hb, bodyAfter, List.takeWhile_cons, List.dropWhile_cons, hnd, ih]

/-- Claim C3: a stream not opening with the three-character delimiter yields
an empty mapping with the cursor left at position zero; a stream opening with
the delimiter yields the mapping obtained by folding the
split-at-first-colon-and-trim step over the lines before the first
dash-starting line (colon-free lines are skipped by the step), with the
cursor after that line; on the concrete input of the claim the mapping is
exactly the pair title to Hello and the cursor sits at the first byte of the
body. -/
theorem c3_frontmatter_spec :
    (∀ s : List Char, ¬ s.take 3 = ['-', '-', '-'] → readFrontmatter s = ([], s))
      ∧ (∀ s : List Char,
          readFrontmatter ('-' :: '-' :: '-' :: s)
            = (headerFold (toLines s), joinLines (bodyAfter (toLines s))))
      ∧ readFrontmatter ("---\ntitle: Hello\n---\nBody text\n".data)
          = ([("title", "Hello")], "Body text\n".data) := by
  refine ⟨?_, ?_, by decide⟩
  · intro s h
    simp [readFrontmatter, h]
  · intro s
    have h3 : ('-' :: '-' :: '-' :: s).take 3 = ['-', '-', '-'] := rfl
    simp [readFrontmatter, h3, processHeader_spec, headerFold]

theorem c3_frontmatter_spec_witness :
    ¬ ("Body only".data.take 3 = ['-', '-', '-'])
      ∧ readFrontmatter "Body only".data = ([], "Body only".data) :=
  ⟨by decide, c3_frontmatter_spec.1 "Body only".data (by decide)⟩

/-- The values stored in a tera Context as used by this program: serialized
strings, the frontmatter string map of an item, or the serialized section
index inserted under the key data by main. -/
inductive JValue where
  | str : String → JValue
  | table : List (String × String) → JValue
  | sections : List (String × List Content) → JValue
  deriving DecidableEq

/-- Context::from_serialize applied to a Content value: the four serialized
fields of the struct, in declaration order. -/
def itemContext (c : Content) : List (String × JValue) :=
  [("path", JValue.str c.path), ("slug", JValue.str c.slug),
    ("frontmatter", JValue.table c.frontmatter), ("content", JValue.str c.content)]

/-- Context::extend of tera: append the entries of the source context to
self, overwriting existing keys with the values of the source (the
BTreeMap::append semantics of the backing map). -/
def contextExtend (self source : List (String × JValue)) : List (String × JValue) :=
  source.foldl (fun m kv => mapInsert m kv.1 kv.2) self

/-- The render context built by create_files for one item: the serialized
item extended with a clone of the base context. -/
def renderContext (c : Content) (base : List (String × JValue)) : List (String × JValue) :=
  contextExtend (itemContext c) base

/-- Claim C1 fails on the code: when the base context carries a key that an
item also serializes, the base value wins, because Context::extend overwrites
the item fields with the base entries; with a base binding path to the string
BASE, the merged context maps path to BASE rather than to the item path. -/
theorem c1_item_fields_do_not_win :
    mapFind (renderContext ⟨"x.md", "/x", [], "body"⟩ [("path", JValue.str "BASE")]) "path"
        = some (JValue.str "BASE")
      ∧ ¬ mapFind (renderContext ⟨"x.md", "/x", [], "body"⟩ [("path", JValue.str "BASE")]) "path"
        = some (JValue.str "x.md") := by
  refine ⟨by decide, by decide⟩

theorem contextExtend_find (source : List (String × JValue)) :
    ∀ self key, (source.map Prod.fst).Nodup →
    mapFind (contextExtend self source) key
      = (match mapFind source key with
         | some v => some v
         | none => mapFind self key) := by
  induction source with
  | nil => intro self key h; simp [contextExtend, mapFind]
  | cons kv rest ih =>
    intro self key h
    obtain ⟨k0, v0⟩ := kv
    have hnd : (rest.map Prod.fst).Nodup := (List.nodup_cons.mp (by simpa using h)).2
    have hnotin : k0 ∉ rest.map Prod.fst := (List.nodup_cons.mp (by simpa using h)).1
    have hstep : contextExtend self ((k0, v0) :: rest) = contextExtend (mapInsert self k0 v0) rest := by
      simp [contextExtend]
    rw [hstep, ih (mapInsert self k0 v0) key hnd]
    by_cases hk : key = k0
    · subst hk
      have hrest : mapFind rest key = none := by
        clear ih hstep hnd h
        induction rest with
        | nil => rfl
        | cons p ps ihp =>
          obtain ⟨kp, vp⟩ := p
          have h1 : ¬ kp = key := by
            intro hh
            exact hnotin (by simp [hh])
          have h2 : key ∉ ps.map Prod.fst := by
            intro hh
            exact hnotin (by simp [hh])
          simp only [mapFind, if_neg h1]
          exact ihp h2
      simp [mapFind, hrest, mapFind_mapInsert]
    · have h2 : ¬ k0 = key := fun hh => hk hh.symm
      simp only [mapFind, if_neg h2]
      cases hr : mapFind rest key with
      | some v => simp
      | none => simp [mapFind_mapInsert, hk]

/-- Claim C1 (amended): the render context of an item is its four serialized
fields, path, slug, frontmatter and content, extended with a copy of the base
context, and on a key collision the base context wins, not the item; since
the base context built by main binds only the key data (to the section
index), in an actual run every item field survives and the context also
carries the section index under data. -/
theorem c1_merge_characterization :
    (∀ (c : Content) (base : List (String × JValue)) (key : String),
        (base.map Prod.fst).Nodup →
        mapFind (renderContext c base) key
          = (match mapFind base key with
             | some v => some v
             | none => mapFind (itemContext c) key))
      ∧ (∀ (c : Content) (idx : List (String × List Content)),
          mapFind (renderContext c [("data", JValue.sections idx)]) "path"
              = some (JValue.str c.path)
            ∧ mapFind (renderContext c [("data", JValue.sections idx)]) "slug"
              = some (JValue.str c.slug)
            ∧ mapFind (renderContext c [("data", JValue.sections idx)]) "frontmatter"
              = some (JValue.table c.frontmatter)
            ∧ mapFind (renderContext c [("data", JValue.sections idx)]) "content"
              = some (JValue.str c.content)
            ∧ mapFind (renderContext c [("data", JValue.sections idx)]) "data"
              = some (JValue.sections idx)) := by
  constructor
  · intro c base key h
    exact contextExtend_find base (itemContext c) key h
  · intro c idx
    refine ⟨rfl, rfl, rfl, rfl, rfl⟩

theorem c1_merge_characterization_witness :
    ((([("data", JValue.sections [])] : List (String × JValue)).map Prod.fst).Nodup)
      ∧ mapFind (renderContext ⟨"a.md", "/a", [], "b"⟩ [("data", JValue.sections [])]) "slug"
          = (match mapFind ([("data", JValue.sections [])] : List (String × JValue)) "slug" with
             | some v => some v
             | none => mapFind (itemContext ⟨"a.md", "/a", [], "b"⟩) "slug") :=
  ⟨by decide,
    c1_merge_characterization.1 ⟨"a.md", "/a", [], "b"⟩ [("data", JValue.sections [])] "slug"
      (by decide)⟩

/-- One item together with the outcomes the filesystem and the template
engine produce for it during create_files: the create_dir_all result, the
layout render result, the File::create result, and the write_all result. -/
structure ItemRun where
  content : Content
  createDir : Except String Unit
  render : Except String String
  createFile : Except String Unit
  writeAll : Except String Unit

/-- The error line printed by create_files when a layout render fails,
carrying the item path and the underlying cause. -/
def logMsg (p e : String) : String :=
  "Error rendering template " ++ p ++ ": " ++ e

/-- create_files of main.rs over a list of items with their outcomes: returns
the list of output file locations created and the error lines printed, or the
first aborting io error.  Items without a parent are skipped; the
create_dir_all and File::create errors propagate through the question-mark
operator; a render error is printed and the loop continues; the write_all
result is discarded by the source. -/
def createFiles (output : String) : List ItemRun →
    Except String (List (List String) × List String)
  | [] => Except.ok ([], [])
  | r :: rest =>
    match parentOf r.content.path with
    | none => createFiles output rest
    | some par =>
      match fileStemOf r.content.path with
      | none => Except.error "panic: item path has no file name"
      | some stem =>
        match r.createDir with
        | Except.error e => Except.error e
        | Except.ok _ =>
          match r.render with
          | Except.ok _ =>
            match r.createFile with
            | Except.error e => Except.error e
            | Except.ok _ =>
              (createFiles output rest).map
                (fun pr => ((outputDirOf output par stem ++ [setExtension "index" "html"]) :: pr.1,
                  pr.2))
          | Except.error err =>
            (createFiles output rest).map
              (fun pr => (pr.1, logMsg r.content.path err :: pr.2))

/-- Claim C5 fails on the code: an io error raised while writing the rendered
bytes into the already created output file is discarded by the source, so the
materialization pass does not abort; here the first item has a failing
write_all yet the run completes, produces both output locations, and reports
no error. -/
theorem c5_write_error_does_not_abort :
    createFiles "out"
        [⟨⟨"a.md", "/a", [], "x"⟩, Except.ok (), Except.ok "html", Except.ok (),
            Except.error "disk full"⟩,
          ⟨⟨"b.md", "/b", [], "y"⟩, Except.ok (), Except.ok "html", Except.ok (), Except.ok ()⟩]
      = Except.ok ([["out", "a", "index.html"], ["out", "b", "index.html"]], []) := by
  rfl

/-- Claim C5 (amended): a failing layout render is logged with the item path
and the cause and the pass continues, producing no output file for that item;
an io error from File::create aborts the whole pass; but an io error from
writing the bytes into the created file is silently discarded and the pass
continues, the file having been created. -/
theorem c5_error_handling :
    (∀ (output : String) (r : ItemRun) (rest : List ItemRun) (par : List String)
        (stem e : String),
        parentOf r.content.path = some par → fileStemOf r.content.path = some stem →
        r.createDir = Except.ok () → r.render = Except.error e →
        createFiles output (r :: rest)
          = (createFiles output rest).map (fun pr => (pr.1, logMsg r.content.path e :: pr.2)))
      ∧ (∀ (output : String) (r : ItemRun) (rest : List ItemRun) (par : List String)
          (stem rendered e : String),
          parentOf r.content.path = some par → fileStemOf r.content.path = some stem →
          r.createDir = Except.ok () → r.render = Except.ok rendered →
          r.createFile = Except.error e →
          createFiles output (r :: rest) = Except.error e)
      ∧ (∀ (output : String) (r : ItemRun) (rest : List ItemRun) (par : List String)
          (stem rendered e : String),
          parentOf r.content.path = some par → fileStemOf r.content.path = some stem →
          r.createDir = Except.ok () → r.render = Except.ok rendered →
          r.createFile = Except.ok () → r.writeAll = Except.error e →
          createFiles output (r :: rest)
            = (createFiles output rest).map
                (fun pr => ((outputDirOf output par stem ++ [setExtension "index" "html"]) :: pr.1,
                  pr.2))) := by
  refine ⟨?_, ?_, ?_⟩
  · intro output r rest par stem e hp hs hd hr
    simp [createFiles, hp, hs, hd, hr]
  · intro output r rest par stem rendered e hp hs hd hr hc
    simp [createFiles, hp, hs, hd, hr, hc]
  · intro output r rest par stem rendered e hp hs hd hr hc hw
    simp [createFiles, hp, hs, hd, hr, hc]

theorem c5_error_handling_witness :
    parentOf "a.md" = some []
      ∧ fileStemOf "a.md" = some "a"
      ∧ createFiles "out"
          [⟨⟨"a.md", "/a", [], "x"⟩, Except.ok (), Except.error "missing layout", Except.ok (),
              Except.ok ()⟩]
        = (createFiles "out" []).map (fun pr => (pr.1, logMsg "a.md" "missing layout" :: pr.2)) :=
  ⟨by decide, by decide,
    c5_error_handling.1 "out"
      ⟨⟨"a.md", "/a", [], "x"⟩, Except.ok (), Except.error "missing layout", Except.ok (),
        Except.ok ()⟩
      [] [] "a" "missing layout" (by decide) (by decide) rfl rfl⟩

/-- One regular file seen by copy_static: its relative path under the content
root, its bytes, and the outcome fs::copy would produce for it. -/
structure StaticFile where
  relPath : String
  bytes : String
  copyResult : Except String Unit

/-- Whether copy_static selects a file for copying: not hidden, and carrying
an extension outside the fixed list; a file without an extension is never
copied. -/
def eligibleStatic (f : StaticFile) : Bool :=
  if isHidden f.relPath then false
  else
    match extensionOf f.relPath with
    | none => false
    | some e => !staticExtSkip e

/-- copy_static of main.rs over the files of the content tree in traversal
order: each selected file is copied byte for byte to the same relative
location under the output root; the question-mark operator on fs::copy makes
the first copy failure abort the remaining ones.  No directories are created
by this pass. -/
def copyStatic (outRoot : String) : List StaticFile →
    Except String (List (List String × String))
  | [] => Except.ok []
  | f :: rest =>
    if isHidden f.relPath then copyStatic outRoot rest
    else
      match extensionOf f.relPath with
      | none => copyStatic outRoot rest
      | some e =>
        if staticExtSkip e then copyStatic outRoot rest
        else
          match f.copyResult with
          | Except.error err => Except.error err
          | Except.ok _ =>
            (copyStatic outRoot rest).map
              (fun cs => (pathComponents outRoot ++ pathComponents f.relPath, f.bytes) :: cs)

/-- Claim C7 fails on the code: the first copy failure aborts the whole
static pass through the question-mark operator, so the remaining eligible
files are never attempted; here the first file fails and the second,
perfectly copyable file does not appear in any output, the pass returning
the error (which main then discards unreported). -/
theorem c7_copy_failure_aborts :
    copyStatic "out"
        [⟨"a.png", "PNG-A", Except.error "no such directory"⟩,
          ⟨"b.png", "PNG-B", Except.ok ()⟩]
      = Except.error "no such directory" := by
  rfl

/-- Claim C7 (amended): when every eligible file copies successfully, the
static pass copies exactly the non-hidden files whose extension lies outside
the fixed list, byte for byte, to the same relative location under the output
root, in traversal order; but the first copy failure aborts the pass, the
remaining files are not attempted, and no parent directories are created
(the caller additionally discards the returned error). -/
theorem c7_static_copy_rule :
    (∀ (out : String) (fs : List StaticFile),
        (∀ f, f ∈ fs → eligibleStatic f = true → f.copyResult = Except.ok ()) →
        copyStatic out fs
          = Except.ok ((fs.filter eligibleStatic).map
              (fun f => (pathComponents out ++ pathComponents f.relPath, f.bytes))))
      ∧ (∀ (out : String) (pre : List StaticFile) (f : StaticFile) (rest : List StaticFile)
          (e : String),
          (∀ g, g ∈ pre → eligibleStatic g = true → g.copyResult = Except.ok ()) →
          eligibleStatic f = true → f.copyResult = Except.error e →
          copyStatic out (pre ++ f :: rest) = Except.error e) := by
  constructor
  · intro out fs
    induction fs with
    | nil => intro h; rfl
    | cons f rest ih =>
      intro h
      have hrest : ∀ g, g ∈ rest → eligibleStatic g = true → g.copyResult = Except.ok () :=
        fun g hg => h g (List.mem_cons_of_mem f hg)
      by_cases hh : isHidden f.relPath = true
      · have he : eligibleStatic f = false := by simp [eligibleStatic, hh]
        simp [copyStatic, hh, List.filter_cons, he, ih hrest]
      · have hhb : isHidden f.relPath = false := by
          cases h2 : isHidden f.relPath with
          | true => exact absurd h2 hh
          | false => rfl
        cases hext : extensionOf f.relPath with
        | none =>
          have he : eligibleStatic f = false := by simp [eligibleStatic, hhb, hext]
          simp [copyStatic, hhb, hext, List.filter_cons, he, ih hrest]
        | some e =>
          by_cases hskip : staticExtSkip e = true
          · have he : eligibleStatic f = false := by simp [eligibleStatic, hhb, hext, hskip]
            simp [copyStatic, hhb, hext, hskip, List.filter_cons, he, ih hrest]
          · have hskipb : staticExtSkip e = false := by
              cases h2 : staticExtSkip e with
              | true => exact absurd h2 hskip
              | false => rfl
            have he : eligibleStatic f = true := by simp [eligibleStatic, hhb, hext, hskipb]
            have hcopy : f.copyResult = Except.ok () := h f (List.mem_cons_self f rest) he
            simp [copyStatic, hhb, hext, hskipb, hcopy, List.filter_cons, he, ih hrest,
              Except.map]
  · intro out pre
    induction pre with
    | nil =>
      intro f rest e hpre hf hfail
      have hhb : isHidden f.relPath = false := by
        by_contra hh
        have : eligibleStatic f = false := by
          simp [eligibleStatic] at hh ⊢
          simp [hh]
        rw [this] at hf
        exact Bool.false_ne_true hf
      cases hext : extensionOf f.relPath with
      | none =>
        exfalso
        have : eligibleStatic f = false := by simp [eligibleStatic, hhb, hext]
        rw [this] at hf
        exact Bool.false_ne_true hf
      | some ex =>
        have hskipb : staticExtSkip ex = false := by
          by_contra hh
          have h2 : staticExtSkip ex = true := by
            cases h3 : staticExtSkip ex with
            | true => rfl
            | false => exact absurd h3 hh
          have : eligibleStatic f = false := by simp [eligibleStatic, hhb, hext, h2]
          rw [this] at hf
          exact Bool.false_ne_true hf
        simp [copyStatic, hhb, hext, hskipb, hfail]
    | cons g pre ih =>
      intro f rest e hpre hf hfail
      have hg : eligibleStatic g = true → g.copyResult = Except.ok () :=
        hpre g (List.mem_cons_self g pre)
      have hpre2 : ∀ x, x ∈ pre → eligibleStatic x = true → x.copyResult = Except.ok () :=
        fun x hx => hpre x (List.mem_cons_of_mem g hx)
      have htail := ih f rest e hpre2 hf hfail
      by_cases hh : isHidden g.relPath = true
      · simpa [copyStatic, hh] using htail
      · have hhb : isHidden g.relPath = false := by
          cases h2 : isHidden g.relPath with
          | true => exact absurd h2 hh
          | false => rfl
        cases hext : extensionOf g.relPath with
        | none => simpa [copyStatic, hhb, hext] using htail
        | some ex =>
          by_cases hskip : staticExtSkip ex = true
          · simpa [copyStatic, hhb, hext, hskip] using htail
          · have hskipb : staticExtSkip ex = false := by
              cases h2 : staticExtSkip ex with
              | true => exact absurd h2 hskip
              | false => rfl
            have he : eligibleStatic g = true := by simp [eligibleStatic, hhb, hext, hskipb]
            have hcopy : g.copyResult = Except.ok () := hg he
            simp [copyStatic, hhb, hext, hskipb, hcopy, htail, Except.map]

theorem c7_static_copy_rule_witness :
    (∀ f, f ∈ [(⟨"img/logo.png", "PNG", Except.ok ()⟩ : StaticFile)] →
        eligibleStatic f = true → f.copyResult = Except.ok ())
      ∧ copyStatic "out" [⟨"img/logo.png", "PNG", Except.ok ()⟩]
          = Except.ok (([(⟨"img/logo.png", "PNG", Except.ok ()⟩ : StaticFile)].filter
                eligibleStatic).map
              (fun f => (pathComponents "out" ++ pathComponents f.relPath, f.bytes))) := by
  have hall : ∀ f, f ∈ [(⟨"img/logo.png", "PNG", Except.ok ()⟩ : StaticFile)] →
      eligibleStatic f = true → f.copyResult = Except.ok () := by
    intro f hf he
    rw [List.mem_singleton] at hf
    rw [hf]
  exact ⟨hall, c7_static_copy_rule.1 "out" [⟨"img/logo.png", "PNG", Except.ok ()⟩] hall⟩

/-- The per-file pipeline of compile_content after the filters, with the
external collaborators abstracted: md is the markdown-to-html conversion
(including highlighting), inl is the inline self-render through the template
engine with an empty context.  A file failing the filters or whose body does
not decode produces no item; an inline render failure keeps the un-rendered
html; the produced item carries the relative path, the derived slug, the
frontmatter mapping and the final html. -/
def compileEntry (md : String → String) (inl : String → Except String String)
    (f : SourceFile) : Option Content :=
  if acceptedByCompile f.relPath then
    if f.bodyUtf8Ok then
      (fun fm body =>
        (fun html =>
          (fun html2 =>
            some (⟨f.relPath, slugOf f.relPath, fm, html2⟩ : Content))
          (match inl html with
           | Except.ok rendered => rendered
           | Except.error _ => html))
        (md (String.mk body)))
      (readFrontmatter f.text.data).1 (readFrontmatter f.text.data).2
    else none
  else none

/-- Claim C9: a regular, non-hidden file without any extension passes the
compile filter and is processed through the full pipeline into a ContentItem,
and the static pass never copies it, because both extension filters only
apply when an extension is present. -/
theorem c9_no_extension_accepted (md : String → String)
    (inl : String → Except String String) (f : SourceFile)
    (hh : isHidden f.relPath = false) (he : extensionOf f.relPath = none)
    (hu : f.bodyUtf8Ok = true) :
    (compileEntry md inl f).isSome = true ∧ copiedByStatic f.relPath = false := by
  have hacc : acceptedByCompile f.relPath = true := by
    simp [acceptedByCompile, hh, he]
  constructor
  · simp [compileEntry, hacc, hu]
  · simp [copiedByStatic, hh, he]

theorem c9_no_extension_accepted_witness :
    isHidden "README" = false
      ∧ extensionOf "README" = none
      ∧ ((compileEntry (fun s => s) (fun s => Except.ok s)
            ⟨"README", "hello", true⟩).isSome = true
          ∧ copiedByStatic "README" = false) :=
  ⟨by decide, by decide,
    c9_no_extension_accepted (fun s => s) (fun s => Except.ok s) ⟨"README", "hello", true⟩
      (by decide) (by decide) rfl⟩
